import Mathlib

/-!
Shallow embedding of the set-cover repository:
  * `src/ORFile.py` — the `SetCover` data model, the `IntStream` tokenizer,
    the `ORFile` (indexed / Beasley) parser and writer, and the `SetFile`
    (explicit) parser;
  * `src/set-cover-approx.py` — the exact recursive search
    (`get_subsols`, `sub_cover`, `optimum_set_cover`).

Universe elements and weights are integers read from a text file, so both
are modelled as `ℤ`.  Python `frozenset`s of elements become `Finset ℤ`;
Python's `set` of frozensets becomes a `Finset (Finset ℤ)` when only
membership matters and a duplicate-free `List` where iteration order
matters.  Fallible operations (Python `assert`, `ValueError`, `KeyError`)
return `Option`, with `none` for any fatal error.
-/

/-- A Python `frozenset` of universe elements. -/
abbrev PySet := Finset ℤ

/-- State of a `SetCover` object after `__init__` (src/ORFile.py, lines 34-60):
`self.sets`, `self.weight_list`, `self.weight_lookup`, `self._inf_weight`,
`self.universe_count`. -/
structure SetCover where
  universe_count : ℤ
  sets : Finset PySet
  weight_list : List ℤ
  weight_lookup : PySet → Option ℤ
  inf_weight : ℤ

/-- The union accumulated by `flatten = set(); for s in list_of_sets: flatten |= s`. -/
def flattenSets (l : List PySet) : PySet :=
  l.foldl (fun a s => a ∪ s) ∅

/-- The dictionary built by
`for i, s in enumerate(list_of_sets): self.weight_lookup[s] = self.weight_list[i]`:
a fold of overwriting updates over the (set, weight) pairs in list order. -/
def buildLookup (los : List PySet) (ws : List ℤ) : PySet → Option ℤ :=
  (los.zip ws).foldl (fun acc p => Function.update acc p.1 (some p.2)) fun _ => none

/-- `max(self.weight_list)`; only evaluated on nonempty lists in the source
(the `assert 0 < min(weights)` has already aborted otherwise). -/
def wsMax (ws : List ℤ) : ℤ :=
  (ws.maximum).unbot' 0

/-- The checks of `SetCover.__init__`:
`assert 0 < universe_count`, `assert len(weights) == len(list_of_sets)`,
`assert (0 == min(flatten) and max(flatten) == universe_count-1 and
len(flatten) == universe_count)`, `assert 0 < min(weights)`.
Python's `min`/`max` raise `ValueError` on an empty collection, which is a
fatal load failure just like a failed assert, so `min(flatten) == 0` is
modelled as `(flattenSets los).min = some 0` (false when empty) and
`0 < min(weights)` as `ws ≠ [] ∧ ∀ w ∈ ws, 0 < w`. -/
def coverChecksOK (uc : ℤ) (los : List PySet) (ws : List ℤ) : Bool :=
  decide (0 < uc) &&
  decide (ws.length = los.length) &&
  decide ((flattenSets los).min = ((0 : ℤ) : WithTop ℤ)) &&
  decide ((flattenSets los).max = ((uc - 1 : ℤ) : WithBot ℤ)) &&
  decide (((flattenSets los).card : ℤ) = uc) &&
  decide (ws ≠ [] ∧ ∀ w ∈ ws, 0 < w)

/-- `SetCover.__init__(universe_count, list_of_sets, weights)`:
validates the input and stores `self.sets = set(list_of_sets)` (deduplicated),
`self.weight_list`, the last-wins `self.weight_lookup`,
`self._inf_weight = max(self.weight_list) + 1`, and `self.universe_count`.
Any assertion failure is `none`. -/
def mkSetCover (uc : ℤ) (los : List PySet) (ws : List ℤ) : Option SetCover :=
  if coverChecksOK uc los ws then
    some { universe_count := uc
           sets := los.toFinset
           weight_list := ws
           weight_lookup := buildLookup los ws
           inf_weight := wsMax ws + 1 }
  else none

/-- `SetCover.set_of_sets`. -/
def SetCover.set_of_sets (sc : SetCover) : Finset PySet :=
  sc.sets

/-- `SetCover.universe`: `set(range(self.universe_count))`, i.e. the integers
`0, …, universe_count-1` (empty when `universe_count ≤ 0`, exactly as
Python's `range`). -/
def SetCover.pyUniverse (sc : SetCover) : Finset ℤ :=
  Finset.Icc 0 (sc.universe_count - 1)

/-- `SetCover.weight(a_set)`: dictionary lookup (`KeyError`, i.e. `none`,
for a set that is not a key). -/
def SetCover.weight (sc : SetCover) (s : PySet) : Option ℤ :=
  sc.weight_lookup s

/-- `SetCover.check_solution(sol)`: `False` if some member of `sol` is not in
`self.sets`, otherwise `reduce(lambda a, b: a|b, sol, set()) == self.universe()`. -/
def SetCover.check_solution (sc : SetCover) (sol : List PySet) : Bool :=
  if sol.any (fun s => decide (s ∉ sc.sets)) then false
  else decide (sol.foldl (fun a b => a ∪ b) ∅ = sc.pyUniverse)

/-- Membership in the accumulated union. -/
theorem flattenSets_mem (l : List PySet) (x : ℤ) :
    x ∈ flattenSets l ↔ ∃ s ∈ l, x ∈ s := by
  suffices h : ∀ (a : PySet), x ∈ l.foldl (fun a s => a ∪ s) a ↔ x ∈ a ∨ ∃ s ∈ l, x ∈ s by
    simpa [flattenSets] using h ∅
  induction l with
  | nil => simp
  | cons s rest ih =>
      intro a
      simp only [List.foldl_cons, ih, Finset.mem_union, List.mem_cons]
      constructor
      · rintro (⟨h | h⟩ | ⟨t, ht, hx⟩)
        · exact Or.inl h
        · exact Or.inr ⟨s, Or.inl rfl, h⟩
        · exact Or.inr ⟨t, Or.inr ht, hx⟩
      · rintro (h | ⟨t, rfl | ht, hx⟩)
        · exact Or.inl (Or.inl h)
        · exact Or.inl (Or.inr hx)
        · exact Or.inr ⟨t, ht, hx⟩

/-- The union of the deduplicated set collection is the accumulated union. -/
theorem toFinset_sup_eq_flattenSets (l : List PySet) :
    l.toFinset.sup id = flattenSets l := by
  ext x
  simp [Finset.mem_sup, flattenSets_mem]

/-- The fold of overwriting dictionary updates underlying `buildLookup`. -/
def updFold (ps : List (PySet × ℤ)) (acc : PySet → Option ℤ) : PySet → Option ℤ :=
  ps.foldl (fun a p => Function.update a p.1 (some p.2)) acc

theorem buildLookup_eq_updFold (los : List PySet) (ws : List ℤ) :
    buildLookup los ws = updFold (los.zip ws) fun _ => none :=
  rfl

/-- A key that never occurs keeps its initial binding. -/
theorem updFold_not_mem (ps : List (PySet × ℤ)) (acc : PySet → Option ℤ) (s : PySet)
    (h : ∀ p ∈ ps, p.1 ≠ s) : updFold ps acc s = acc s := by
  induction ps generalizing acc with
  | nil => rfl
  | cons p rest ih =>
      have hp : p.1 ≠ s := h p (List.mem_cons_self _ _)
      have : updFold (p :: rest) acc s = updFold rest (Function.update acc p.1 (some p.2)) s := rfl
      rw [this, ih _ (fun q hq => h q (List.mem_cons_of_mem _ hq)),
        Function.update_noteq (Ne.symm hp)]

/-- A key that occurs gets one of its bound values. -/
theorem updFold_mem (ps : List (PySet × ℤ)) (acc : PySet → Option ℤ) (s : PySet)
    (h : s ∈ ps.map Prod.fst) : ∃ p ∈ ps, p.1 = s ∧ updFold ps acc s = some p.2 := by
  induction ps generalizing acc with
  | nil => simp at h
  | cons p rest ih =>
      have hstep : updFold (p :: rest) acc s = updFold rest (Function.update acc p.1 (some p.2)) s := rfl
      by_cases hr : s ∈ rest.map Prod.fst
      · obtain ⟨q, hq, hq1, hq2⟩ := ih (Function.update acc p.1 (some p.2)) hr
        exact ⟨q, List.mem_cons_of_mem _ hq, hq1, by rw [hstep]; exact hq2⟩
      · have hps : p.1 = s := by
          rcases List.mem_map.mp h with ⟨q, hq, hq1⟩
          rcases List.mem_cons.mp hq with rfl | hq'
          · exact hq1
          · exact absurd (List.mem_map.mpr ⟨q, hq', hq1⟩) hr
        refine ⟨p, List.mem_cons_self _ _, hps, ?_⟩
        rw [hstep, updFold_not_mem _ _ _ (fun q hq hqs =>
          hr (List.mem_map.mpr ⟨q, hq, hqs⟩))]
        rw [hps, Function.update_same]

/-- The last binding of a key wins. -/
theorem updFold_last (l1 l2 : List (PySet × ℤ)) (acc : PySet → Option ℤ) (s : PySet) (w : ℤ)
    (h : ∀ p ∈ l2, p.1 ≠ s) : updFold (l1 ++ (s, w) :: l2) acc s = some w := by
  have h1 : updFold (l1 ++ (s, w) :: l2) acc = updFold ((s, w) :: l2) (updFold l1 acc) := by
    simp [updFold, List.foldl_append]
  have h2 : updFold ((s, w) :: l2) (updFold l1 acc) s
      = updFold l2 (Function.update (updFold l1 acc) s (some w)) s := rfl
  rw [h1, h2, updFold_not_mem _ _ _ h, Function.update_same]

/-- Unfolding of the validation conjunction of `SetCover.__init__`. -/
theorem coverChecksOK_iff (uc : ℤ) (los : List PySet) (ws : List ℤ) :
    coverChecksOK uc los ws = true ↔
      0 < uc ∧ ws.length = los.length ∧
      (flattenSets los).min = ((0 : ℤ) : WithTop ℤ) ∧
      (flattenSets los).max = ((uc - 1 : ℤ) : WithBot ℤ) ∧
      ((flattenSets los).card : ℤ) = uc ∧
      ws ≠ [] ∧ ∀ w ∈ ws, 0 < w := by
  simp only [coverChecksOK, Bool.and_eq_true, decide_eq_true_eq]
  tauto

/-- Given `0 < uc`, the three flatten checks say exactly that the accumulated
union is `{0, …, uc-1}`. -/
theorem flatten_checks_iff (uc : ℤ) (los : List PySet) (huc : 0 < uc) :
    ((flattenSets los).min = ((0 : ℤ) : WithTop ℤ) ∧
     (flattenSets los).max = ((uc - 1 : ℤ) : WithBot ℤ) ∧
     ((flattenSets los).card : ℤ) = uc) ↔
    flattenSets los = Finset.Icc 0 (uc - 1) := by
  constructor
  · rintro ⟨hmin, hmax, hcard⟩
    have hsub : flattenSets los ⊆ Finset.Icc 0 (uc - 1) := by
      intro x hx
      rw [Finset.mem_Icc]
      constructor
      · have := Finset.min_le hx
        rw [hmin] at this
        exact_mod_cast this
      · have := Finset.le_max hx
        rw [hmax] at this
        exact_mod_cast this
    have hcard' : (Finset.Icc (0 : ℤ) (uc - 1)).card ≤ (flattenSets los).card := by
      rw [Int.card_Icc]
      omega
    exact Finset.eq_of_subset_of_card_le hsub hcard'
  · intro hflat
    rw [hflat]
    refine ⟨?_, ?_, ?_⟩
    · apply le_antisymm
      · exact Finset.min_le (by rw [Finset.mem_Icc]; omega)
      · exact Finset.le_min fun b hb => by
          rw [Finset.mem_Icc] at hb
          exact_mod_cast hb.1
    · apply le_antisymm
      · exact Finset.max_le fun b hb => by
          rw [Finset.mem_Icc] at hb
          exact_mod_cast hb.2
      · exact Finset.le_max (by rw [Finset.mem_Icc]; omega)
    · rw [Int.card_Icc]
      omega

/-- Field view of a successful `SetCover` construction. -/
theorem mkSetCover_eq_some {uc : ℤ} {los : List PySet} {ws : List ℤ} {sc : SetCover}
    (h : mkSetCover uc los ws = some sc) :
    coverChecksOK uc los ws = true ∧
    sc.universe_count = uc ∧ sc.sets = los.toFinset ∧ sc.weight_list = ws ∧
    sc.weight_lookup = buildLookup los ws ∧ sc.inf_weight = wsMax ws + 1 := by
  by_cases hc : coverChecksOK uc los ws = true
  · rw [mkSetCover, if_pos hc] at h
    obtain rfl := Option.some_injective _ h.symm
    exact ⟨hc, rfl, rfl, rfl, rfl, rfl⟩
  · rw [mkSetCover, if_neg hc] at h
    exact absurd h (by simp)

/-- Every stored set has a looked-up weight drawn from the weight list. -/
theorem buildLookup_mem (los : List PySet) (ws : List ℤ) (hlen : ws.length = los.length)
    (s : PySet) (hs : s ∈ los) : ∃ w ∈ ws, buildLookup los ws s = some w := by
  have hkey : s ∈ (los.zip ws).map Prod.fst := by
    rw [List.map_fst_zip los ws (le_of_eq hlen.symm)]
    exact hs
  obtain ⟨p, hp, hp1, hp2⟩ := updFold_mem (los.zip ws) (fun _ => none) s hkey
  exact ⟨p.2, (List.of_mem_zip hp).2, by rw [buildLookup_eq_updFold]; exact hp2⟩

/-- Every value in the weight list is at most `max(weight_list)`. -/
theorem le_wsMax (ws : List ℤ) (w : ℤ) (hw : w ∈ ws) : w ≤ wsMax ws := by
  have hle := List.le_maximum_of_mem' hw
  cases hmax : ws.maximum with
  | bot =>
      rw [List.maximum_eq_bot] at hmax
      subst hmax
      simp at hw
  | coe m =>
      rw [hmax] at hle
      rw [wsMax, hmax]
      exact_mod_cast hle

/-- C2: every successfully constructed instance has a positive universe
count, the union of its stored candidate sets is exactly the universe
`{0, …, universe_count-1}`, and every stored candidate set has a positive
weight; and construction succeeds exactly when the inputs satisfy the
well-formedness checks (it fails fast otherwise).  All accessors of the
embedded instance are pure, so the invariants are preserved afterward. -/
theorem setCover_invariants (uc : ℤ) (los : List PySet) (ws : List ℤ) :
    (∀ sc : SetCover, mkSetCover uc los ws = some sc →
      0 < sc.universe_count ∧
      sc.sets.sup id = sc.pyUniverse ∧
      ∀ s ∈ sc.sets, ∃ w, sc.weight s = some w ∧ 0 < w) ∧
    ((mkSetCover uc los ws).isSome ↔
      0 < uc ∧ ws.length = los.length ∧
      flattenSets los = Finset.Icc 0 (uc - 1) ∧
      ws ≠ [] ∧ ∀ w ∈ ws, 0 < w) := by
  have hsome : (mkSetCover uc los ws).isSome ↔ coverChecksOK uc los ws = true := by
    rw [mkSetCover]
    by_cases hc : coverChecksOK uc los ws = true
    · simp [hc]
    · simp [hc]
  have hiff : coverChecksOK uc los ws = true ↔
      0 < uc ∧ ws.length = los.length ∧
      flattenSets los = Finset.Icc 0 (uc - 1) ∧
      ws ≠ [] ∧ ∀ w ∈ ws, 0 < w := by
    rw [coverChecksOK_iff]
    constructor
    · rintro ⟨h1, h2, h3, h4, h5, h6, h7⟩
      exact ⟨h1, h2, (flatten_checks_iff uc los h1).mp ⟨h3, h4, h5⟩, h6, h7⟩
    · rintro ⟨h1, h2, h3, h6, h7⟩
      obtain ⟨h3', h4', h5'⟩ := (flatten_checks_iff uc los h1).mpr h3
      exact ⟨h1, h2, h3', h4', h5', h6, h7⟩
  refine ⟨?_, hsome.trans hiff⟩
  intro sc hsc
  obtain ⟨hc, huc, hsets, hwl, hlookup, hinf⟩ := mkSetCover_eq_some hsc
  obtain ⟨h1, h2, h3, h6, h7⟩ := hiff.mp hc
  refine ⟨by omega, ?_, ?_⟩
  · rw [hsets, toFinset_sup_eq_flattenSets, h3, SetCover.pyUniverse, huc]
  · intro s hs
    rw [hsets, List.mem_toFinset] at hs
    obtain ⟨w, hw, hlook⟩ := buildLookup_mem los ws h2 s hs
    exact ⟨w, by rw [SetCover.weight, hlookup]; exact hlook, h7 w hw⟩

/-- A concrete valid instance: universe `{0, 1}`, candidate sets `{0}`, `{1}`,
weights `3`, `4`.  The fields are written exactly as `mkSetCover` produces
them, so the construction equation holds by `rfl`. -/
def scEx : SetCover :=
  { universe_count := 2
    sets := ([{0}, {1}] : List PySet).toFinset
    weight_list := [3, 4]
    weight_lookup := buildLookup [{0}, {1}] [3, 4]
    inf_weight := wsMax [3, 4] + 1 }

/-- Witness for `setCover_invariants` at a concrete instance. -/
theorem setCover_invariants_witness :
    0 < scEx.universe_count ∧
    scEx.sets.sup id = scEx.pyUniverse ∧
    ∀ s ∈ scEx.sets, ∃ w, scEx.weight s = some w ∧ 0 < w :=
  (setCover_invariants 2 [{0}, {1}] [3, 4]).1 scEx (by rfl)

/-- C3: for a valid instance, `check_solution(sol)` is true exactly when
every member of `sol` is a stored candidate set and the union of `sol`
is the universe; in every other case it is false. -/
theorem check_solution_iff (uc : ℤ) (los : List PySet) (ws : List ℤ) (sc : SetCover)
    (sol : List PySet) (h : mkSetCover uc los ws = some sc) :
    sc.check_solution sol = true ↔
      (∀ s ∈ sol, s ∈ sc.sets) ∧ sol.toFinset.sup id = sc.pyUniverse := by
  clear h
  rw [SetCover.check_solution]
  by_cases hmem : ∀ s ∈ sol, s ∈ sc.sets
  · have hany : sol.any (fun s => decide (s ∉ sc.sets)) = false := by
      simp only [List.any_eq_false]
      intro s hs
      simpa using hmem s hs
    rw [hany]
    simp only [Bool.false_eq_true, if_false, decide_eq_true_eq]
    have : sol.foldl (fun a b => a ∪ b) ∅ = sol.toFinset.sup id := by
      rw [toFinset_sup_eq_flattenSets]
      rfl
    rw [this]
    tauto
  · have hany : sol.any (fun s => decide (s ∉ sc.sets)) = true := by
      simp only [List.any_eq_true, decide_eq_true_eq]
      push_neg at hmem
      obtain ⟨s, hs, hns⟩ := hmem
      exact ⟨s, hs, hns⟩
    rw [hany]
    simp only [if_true, Bool.false_eq_true, false_iff]
    tauto

/-- Witness for `check_solution_iff` at a concrete instance and family. -/
theorem check_solution_iff_witness :
    scEx.check_solution [{0}, {1}] = true ↔
      (∀ s ∈ [({0} : PySet), {1}], s ∈ scEx.sets) ∧
      ([({0} : PySet), {1}]).toFinset.sup id = scEx.pyUniverse :=
  check_solution_iff 2 [{0}, {1}] [3, 4] scEx [{0}, {1}] (by rfl)

/-- C6: when the same candidate set occupies two slots, carrying weight `w1`
and later `w2`, with no later occurrence, the constructed instance's weight
for that set is `w2` (last wins). -/
theorem weight_last_wins (uc : ℤ) (la lb l2 : List PySet) (ua ub u2 : List ℤ)
    (s : PySet) (w1 w2 : ℤ) (sc : SetCover)
    (hla : la.length = ua.length) (hlb : lb.length = ub.length)
    (hnotin : s ∉ l2)
    (h : mkSetCover uc (la ++ s :: (lb ++ s :: l2)) (ua ++ w1 :: (ub ++ w2 :: u2)) = some sc) :
    sc.weight s = some w2 := by
  obtain ⟨-, -, -, -, hlookup, -⟩ := mkSetCover_eq_some h
  rw [SetCover.weight, hlookup, buildLookup_eq_updFold]
  have hz1 : (la ++ s :: (lb ++ s :: l2)).zip (ua ++ w1 :: (ub ++ w2 :: u2))
      = la.zip ua ++ (s :: (lb ++ s :: l2)).zip (w1 :: (ub ++ w2 :: u2)) :=
    List.zip_append hla
  have hz2 : (s :: (lb ++ s :: l2)).zip (w1 :: (ub ++ w2 :: u2))
      = (s, w1) :: (lb.zip ub ++ (s, w2) :: l2.zip u2) := by
    have : (s :: (lb ++ s :: l2)).zip (w1 :: (ub ++ w2 :: u2))
        = (s, w1) :: (lb ++ s :: l2).zip (ub ++ w2 :: u2) := rfl
    rw [this, List.zip_append hlb]
    rfl
  rw [hz1, hz2]
  have hrearrange : la.zip ua ++ (s, w1) :: (lb.zip ub ++ (s, w2) :: l2.zip u2)
      = (la.zip ua ++ (s, w1) :: lb.zip ub) ++ (s, w2) :: l2.zip u2 := by
    simp [List.append_assoc]
  rw [hrearrange]
  refine updFold_last _ _ _ s w2 ?_
  intro p hp hps
  apply hnotin
  have hp' : (p.1, p.2) ∈ l2.zip u2 := by rwa [Prod.mk.eta]
  have hmem2 := List.of_mem_zip hp'
  rw [hps] at hmem2
  exact hmem2.1

/-- A concrete instance in which the set `{0}` occupies two slots with
weights `5` then `3`; its fields are exactly the `mkSetCover` output. -/
def scDup : SetCover :=
  { universe_count := 1
    sets := ([{0}, {0}] : List PySet).toFinset
    weight_list := [5, 3]
    weight_lookup := buildLookup [{0}, {0}] [5, 3]
    inf_weight := wsMax [5, 3] + 1 }

/-- Witness for `weight_last_wins`: with slots `{0}` (weight 5) then `{0}`
(weight 3), the stored weight of `{0}` is 3. -/
theorem weight_last_wins_witness : scDup.weight {0} = some 3 :=
  weight_last_wins 1 [] [] [] [] [] [] {0} 5 3 scDup rfl rfl (by simp) (by rfl)

/-- The claim's reading of `inf_weight`, following the spec's words: one plus
the maximum of the weights associated with the instance's *distinct candidate
sets* (the values of the weight lookup), to be compared with the source's
`max(self.weight_list) + 1`. -/
def specInfWeight (sc : SetCover) : ℤ :=
  ((sc.sets.image fun s => (sc.weight s).getD 0).max).unbot' 0 + 1

/-- Counterexample to C9 as stated: for the instance built from slots `{0}`
(weight 5) and `{0}` (weight 3), the stored `inf_weight` is `max([5,3])+1 = 6`,
while one plus the maximum weight associated with the distinct candidate sets
is `3 + 1 = 4`. -/
theorem inf_weight_claim_false :
    (mkSetCover 1 [{0}, {0}] [5, 3]).map SetCover.inf_weight = some 6 ∧
    (mkSetCover 1 [{0}, {0}] [5, 3]).map specInfWeight = some 4 ∧
    (6 : ℤ) ≠ 4 := by
  refine ⟨by rfl, by rfl, by decide⟩

/-- C9 amended: `inf_weight()` equals one plus the maximum over the *full
stored weight list* (every slot's weight, including occurrences superseded by
the last-wins rule); in particular it is strictly greater than `weight(s)`
for every candidate set `s`. -/
theorem inf_weight_amended (uc : ℤ) (los : List PySet) (ws : List ℤ) (sc : SetCover)
    (h : mkSetCover uc los ws = some sc) :
    sc.inf_weight = wsMax sc.weight_list + 1 ∧
    ∀ s ∈ sc.sets, ∃ w, sc.weight s = some w ∧ w < sc.inf_weight := by
  obtain ⟨hc, -, hsets, hwl, hlookup, hinf⟩ := mkSetCover_eq_some h
  obtain ⟨-, hlen, -, -, -, -, -⟩ := (coverChecksOK_iff uc los ws).mp hc
  refine ⟨by rw [hinf, hwl], ?_⟩
  intro s hs
  rw [hsets, List.mem_toFinset] at hs
  obtain ⟨w, hw, hlook⟩ := buildLookup_mem los ws hlen s hs
  refine ⟨w, by rw [SetCover.weight, hlookup]; exact hlook, ?_⟩
  have := le_wsMax ws w hw
  omega

/-- Witness for `inf_weight_amended` at the concrete duplicate-slot instance. -/
theorem inf_weight_amended_witness :
    scDup.inf_weight = wsMax scDup.weight_list + 1 ∧
    ∀ s ∈ scDup.sets, ∃ w, scDup.weight s = some w ∧ w < scDup.inf_weight :=
  inf_weight_amended 1 [{0}, {0}] [5, 3] scDup (by rfl)

/-- A text line, modelled as its sequence of characters (Python `str`).
Lean's builtin `String` operations do not reduce in the kernel, so the
tokenizer works on character lists directly. -/
abbrev Line := List Char

/-- Python `str.strip()`: remove whitespace from both ends of the line
(this also removes the `'\n'` kept by `readline`). -/
def pyStrip (l : Line) : Line :=
  ((l.dropWhile Char.isWhitespace).reverse.dropWhile Char.isWhitespace).reverse

/-- Helper for `pySplit`: accumulate the current token (reversed). -/
def pySplitAux : Line → Line → List Line
  | [], acc => if acc = [] then [] else [acc.reverse]
  | c :: rest, acc =>
      if c.isWhitespace then
        if acc = [] then pySplitAux rest [] else acc.reverse :: pySplitAux rest []
      else pySplitAux rest (c :: acc)

/-- Python `str.split()` with no separator: split on runs of whitespace,
producing no empty tokens. -/
def pySplit (l : Line) : List Line :=
  pySplitAux l []

/-- Accumulate the value of a nonempty run of decimal digits. -/
def digitsValGo : Line → ℕ → Option ℕ
  | [], acc => some acc
  | c :: rest, acc =>
      if c.isDigit then digitsValGo rest (acc * 10 + (c.toNat - ('0').toNat))
      else none

/-- Value of a nonempty all-digit string, `none` otherwise. -/
def digitsVal : Line → Option ℕ
  | [] => none
  | l => digitsValGo l 0

/-- Python `int(s)` on a whitespace-free token: an optional sign followed by
at least one decimal digit; anything else raises `ValueError` (`none`).
(Python also tolerates `_` digit separators and unicode digits; no input in
this development uses them.) -/
def pyInt (l : Line) : Option ℤ :=
  match l with
  | '-' :: rest => (digitsVal rest).map fun n => -(n : ℤ)
  | '+' :: rest => (digitsVal rest).map fun n => (n : ℤ)
  | _ => (digitsVal l).map fun n => (n : ℤ)

/-- `[int(s) for s in line.split()]`, failing on the first malformed token. -/
def parseTokenInts : List Line → Option (List ℤ)
  | [] => some []
  | t :: rest =>
      match pyInt t, parseTokenInts rest with
      | some n, some ns => some (n :: ns)
      | _, _ => none

/-- State of an `IntStream` after `__init__` (src/ORFile.py, lines 91-103):
`self.type` (`'orfile'` by default, `'setfile'` after a marker) and
`self.ints`.  `self.next` starts at 0; the cursor is modelled by passing
the remaining suffix of `ints` around. -/
structure IntStream where
  type : String
  ints : List ℤ

/-- The literal `'#setfile'` compared against `line[1:]`. -/
def markerTail : Line :=
  "#setfile".toList

/-- The read loop of `IntStream.__init__`:
`line = inp.readline().strip(); while line != '': …`.
`readline` returns `''` only at end of file, but the loop condition also
stops at any line that strips to the empty string, so reading ends at the
first blank (or whitespace-only) line.  A line not starting with `'#'`
contributes its integer tokens (a malformed token is a fatal `ValueError`,
i.e. `none`); a line whose remainder after the leading `'#'` is exactly
`'#setfile'` sets the type to `'setfile'`; any other `'#'` line is skipped. -/
def readLoop : List Line → String → Option (List ℤ × String)
  | [], ty => some ([], ty)
  | ln :: rest, ty =>
      match pyStrip ln with
      | [] => some ([], ty)
      | c :: lrest =>
          if c ≠ '#' then
            match parseTokenInts (pySplit (c :: lrest)), readLoop rest ty with
            | some xs, some p => some (xs ++ p.1, p.2)
            | _, _ => none
          else if lrest = markerTail then readLoop rest "setfile"
          else readLoop rest ty

/-- `IntStream.__init__` on a file with the given lines. -/
def mkIntStream (lines : List Line) : Option IntStream :=
  (readLoop lines "orfile").map fun p => { type := p.2, ints := p.1 }

/-- The tokens the read loop takes from a single kept line: none for a
comment line, the whitespace-split tokens otherwise.  (Blank lines never
reach this: the loop has already stopped.) -/
def lineTokens (ln : Line) : List Line :=
  match pyStrip ln with
  | [] => []
  | c :: lrest => if c = '#' then [] else pySplit (c :: lrest)

/-- Whether a line is the `'##setfile'` mode marker: after stripping, a
`'#'` whose remainder is exactly `'#setfile'`. -/
def isMarkerLine (ln : Line) : Bool :=
  match pyStrip ln with
  | [] => false
  | c :: lrest => c = '#' && lrest = markerTail

/-- Counterexample to C4 as stated: in a file whose lines are `"1"`, `""`,
`"2"`, the integer `2` follows a blank line; the stream holds only `[1]`,
not the claimed `[1, 2]` — a blank line ends tokenization. -/
theorem blank_line_ends_tokens :
    (mkIntStream ["1".toList, "".toList, "2".toList]).map IntStream.ints = some [1] ∧
    ([1] : List ℤ) ≠ [1, 2] := by
  constructor <;> decide

/-- Counterexample to C5 as stated: the spec's example marker line
`'## setfile'` (with a space between `'##'` and `'setfile'`) is treated as
an ordinary comment — `line[1:]` is `'# setfile'`, not `'#setfile'` — so
the stream's mode stays `'orfile'` instead of the claimed explicit mode. -/
theorem marker_with_space_not_recognized :
    (mkIntStream ["## setfile".toList]).map IntStream.type = some "orfile" ∧
    "orfile" ≠ "setfile" := by
  constructor <;> decide

/-- The lines the read loop actually consumes: the longest prefix in which
no line strips to the empty string. -/
def keptLines (lines : List Line) : List Line :=
  lines.takeWhile fun ln => !(pyStrip ln).isEmpty

/-- `parseTokenInts` distributes over appending token lists. -/
theorem parseTokenInts_append (a b : List Line) :
    parseTokenInts (a ++ b) =
      match parseTokenInts a, parseTokenInts b with
      | some xs, some ys => some (xs ++ ys)
      | _, _ => none := by
  induction a with
  | nil =>
      cases hb : parseTokenInts b <;> simp [parseTokenInts, hb]
  | cons t rest ih =>
      show parseTokenInts (t :: (rest ++ b)) = _
      rw [parseTokenInts]
      rw [ih]
      cases hp : pyInt t <;> cases ha : parseTokenInts rest <;>
        cases hb : parseTokenInts b <;> simp [parseTokenInts, hp, ha, hb]

/-- Exact characterization of the read loop: it parses the integer tokens of
the non-comment lines among the kept prefix (before the first blank line),
and the resulting type is `'setfile'` exactly when a marker line occurs in
that prefix. -/
theorem readLoop_eq (lines : List Line) (ty : String) :
    readLoop lines ty =
      (parseTokenInts ((keptLines lines).flatMap lineTokens)).map
        fun xs => (xs, if (keptLines lines).any isMarkerLine then "setfile" else ty) := by
  induction lines generalizing ty with
  | nil => rfl
  | cons ln rest ih =>
      cases hstrip : pyStrip ln with
      | nil =>
          have hkept : keptLines (ln :: rest) = [] := by
            simp [keptLines, List.takeWhile_cons, hstrip]
          rw [hkept]
          show readLoop (ln :: rest) ty = some ([], ty)
          rw [readLoop, hstrip]
      | cons c lrest =>
          have hkept : keptLines (ln :: rest) = ln :: keptLines rest := by
            simp [keptLines, List.takeWhile_cons, hstrip]
          rw [hkept]
          by_cases hc : c = '#'
          · subst hc
            have hlt : lineTokens ln = [] := by
              rw [lineTokens, hstrip]
              simp
            by_cases hm : lrest = markerTail
            · have hmark : isMarkerLine ln = true := by
                rw [isMarkerLine, hstrip]
                simp [hm]
              have hLHS : readLoop (ln :: rest) ty = readLoop rest "setfile" := by
                rw [readLoop, hstrip]
                simp [hm]
              rw [hLHS, ih]
              simp [hlt, hmark]
            · have hmark : isMarkerLine ln = false := by
                rw [isMarkerLine, hstrip]
                simp [hm]
              have hLHS : readLoop (ln :: rest) ty = readLoop rest ty := by
                rw [readLoop, hstrip]
                simp [hm]
              rw [hLHS, ih]
              simp [hlt, hmark]
          · have hlt : lineTokens ln = pySplit (c :: lrest) := by
              rw [lineTokens, hstrip]
              simp [hc]
            have hmark : isMarkerLine ln = false := by
              rw [isMarkerLine, hstrip]
              simp [hc]
            have hLHS : readLoop (ln :: rest) ty =
                match parseTokenInts (pySplit (c :: lrest)), readLoop rest ty with
                | some xs, some p => some (xs ++ p.1, p.2)
                | _, _ => none := by
              rw [readLoop, hstrip]
              simp [hc]
            rw [hLHS, ih]
            have hbind : (ln :: keptLines rest).flatMap lineTokens
                = pySplit (c :: lrest) ++ (keptLines rest).flatMap lineTokens := by
              rw [List.flatMap_cons, hlt]
            rw [hbind, parseTokenInts_append]
            cases ha : parseTokenInts (pySplit (c :: lrest)) <;>
              cases hb : parseTokenInts ((keptLines rest).flatMap lineTokens) <;>
                simp [hmark]

/-- C4 amended: the integer stream is the flat ordered sequence of all
whitespace-delimited integer tokens on non-comment lines *before the first
blank (or whitespace-only) line*; comment lines contribute no tokens, and a
blank line ends tokenization, so later tokens do not appear. -/
theorem intStream_ints_amended (lines : List Line) (st : IntStream)
    (h : mkIntStream lines = some st) :
    parseTokenInts ((keptLines lines).flatMap lineTokens) = some st.ints := by
  rw [mkIntStream, readLoop_eq] at h
  cases hp : parseTokenInts ((keptLines lines).flatMap lineTokens) with
  | none => rw [hp] at h; simp at h
  | some xs =>
      rw [hp] at h
      simp only [Option.map_some'] at h
      obtain rfl := Option.some_injective _ h.symm
      rfl

/-- Witness for `intStream_ints_amended` on a concrete three-line file. -/
theorem intStream_ints_amended_witness :
    parseTokenInts ((keptLines ["1 2".toList, "# c".toList, "3".toList]).flatMap lineTokens)
      = some ({ type := "orfile", ints := [1, 2, 3] } : IntStream).ints :=
  intStream_ints_amended ["1 2".toList, "# c".toList, "3".toList]
    { type := "orfile", ints := [1, 2, 3] } (by rfl)

/-- `IntStream.get_int`: `assert self.next < len(self.ints)`, return the next
integer.  The cursor is modelled as the remaining suffix of `self.ints`. -/
def getInt : List ℤ → Option (ℤ × List ℤ)
  | [] => none
  | x :: rest => some (x, rest)

/-- `IntStream.get_seq(count)`: `assert self.next + count <= len(self.ints)`,
return the next `count` integers.  (A negative `count` would move Python's
cursor backwards and return an empty slice; no grammar in the repository
produces one on the success path, and it is modelled as a failure.) -/
def getSeq (count : ℤ) (l : List ℤ) : Option (List ℤ × List ℤ) :=
  if 0 ≤ count ∧ count.toNat ≤ l.length then
    some (l.take count.toNat, l.drop count.toNat)
  else none

/-- `element_member[idx].append(v)`. -/
def appendAt : List (List ℤ) → ℕ → ℤ → List (List ℤ)
  | [], _, _ => []
  | g :: rest, 0, v => (g ++ [v]) :: rest
  | g :: rest, idx + 1, v => g :: appendAt rest idx v

/-- The inner loop of `ORFile.__init__`:
`for s in stream.get_seq(count): assert 1 <= s <= len(element_member);
element_member[s-1].append(i)`. -/
def addRefs (i : ℤ) : List ℤ → List (List ℤ) → Option (List (List ℤ))
  | [], em => some em
  | s :: seq, em =>
      if 1 ≤ s ∧ s ≤ (em.length : ℤ) then addRefs i seq (appendAt em (s - 1).toNat i)
      else none

/-- The outer loop of `ORFile.__init__` over the `universe_count` elements
(`i` is the current element value): read a membership count, read that many
set references, and record element `i` in each referenced slot. -/
def elemLoop : ℕ → ℤ → List (List ℤ) → List ℤ → Option (List (List ℤ) × List ℤ)
  | 0, _, em, l => some (em, l)
  | n + 1, i, em, l =>
      match getInt l with
      | none => none
      | some (count, l1) =>
          match getSeq count l1 with
          | none => none
          | some (seq, l2) =>
              match addRefs i seq em with
              | none => none
              | some em2 => elemLoop n (i + 1) em2 l2

/-- The indexed-grammar parse of `ORFile.__init__` (stream type not
`'setfile'`): universe count, set count, the per-slot weights, then per
universe element a membership count and that many 1-origin set references;
`stream.assert_empty()`; finally the `SetCover` constructor. -/
def parseORTokens (ints : List ℤ) : Option SetCover :=
  match getInt ints with
  | none => none
  | some (universe_count, l1) =>
      match getInt l1 with
      | none => none
      | some (set_count, l2) =>
          match getSeq set_count l2 with
          | none => none
          | some (weight_list, l3) =>
              match elemLoop universe_count.toNat 0 (List.replicate set_count.toNat []) l3 with
              | none => none
              | some (element_member, l4) =>
                  if l4 = [] then
                    mkSetCover universe_count (element_member.map List.toFinset) weight_list
                  else none

/-- The per-set loop of `SetFile.__init__`: read a cardinality and that many
0-origin element values (`assert all(v in range(universe_count) for v in s)`),
reject a duplicate of an already declared set
(`assert s not in element_member`), append. -/
def setLoop : ℕ → ℤ → List PySet → List ℤ → Option (List PySet × List ℤ)
  | 0, _, em, l => some (em, l)
  | n + 1, uc, em, l =>
      match getInt l with
      | none => none
      | some (count, l1) =>
          match getSeq count l1 with
          | none => none
          | some (seq, l2) =>
              if (∀ v ∈ seq.toFinset, 0 ≤ v ∧ v < uc) ∧ seq.toFinset ∉ em then
                setLoop n uc (em ++ [seq.toFinset]) l2
              else none

/-- The explicit-grammar parse of `SetFile.__init__` after the stream was
read: universe count, set count, weights, then the `set_count` explicit sets;
`stream.assert_empty()`; finally the `SetCover` constructor. -/
def parseSetFileTokens (ints : List ℤ) : Option SetCover :=
  match getInt ints with
  | none => none
  | some (universe_count, l1) =>
      match getInt l1 with
      | none => none
      | some (set_count, l2) =>
          match getSeq set_count l2 with
          | none => none
          | some (weight_list, l3) =>
              match setLoop set_count.toNat universe_count [] l3 with
              | none => none
              | some (element_member, l4) =>
                  if l4 = [] then mkSetCover universe_count element_member weight_list
                  else none

/-- `SetFile(fname).get_set_cover()`: re-tokenize the file, require the
marker to have been seen (`assert stream.type == 'setfile'`), and parse the
explicit grammar. -/
def SetFileLoad (lines : List Line) : Option SetCover :=
  match mkIntStream lines with
  | none => none
  | some stream =>
      if stream.type = "setfile" then parseSetFileTokens stream.ints else none

/-- `ORFile(fname).get_set_cover()`: tokenize; if the stream's type is
`'setfile'`, delegate to `SetFile` on the same file; otherwise parse the
indexed grammar from the token stream. -/
def ORFileLoad (lines : List Line) : Option SetCover :=
  match mkIntStream lines with
  | none => none
  | some stream =>
      if stream.type = "setfile" then SetFileLoad lines
      else parseORTokens stream.ints

/-- C5 amended: a line whose stripped content is exactly `'##setfile'`
(no whitespace between `'##'` and `'setfile'`), appearing anywhere before
the first blank line, switches the stream's mode to `'setfile'`, and the
file is then parsed with the explicit (`SetFile`) grammar. -/
theorem marker_sets_explicit_mode (lines : List Line) (st : IntStream)
    (h : mkIntStream lines = some st)
    (hm : (keptLines lines).any isMarkerLine = true) :
    st.type = "setfile" ∧ ORFileLoad lines = SetFileLoad lines := by
  have hty : st.type = "setfile" := by
    rw [mkIntStream, readLoop_eq] at h
    cases hp : parseTokenInts ((keptLines lines).flatMap lineTokens) with
    | none => rw [hp] at h; simp at h
    | some xs =>
        rw [hp] at h
        simp only [Option.map_some'] at h
        obtain rfl := Option.some_injective _ h.symm
        show (if (keptLines lines).any isMarkerLine = true then "setfile" else "orfile") = "setfile"
        rw [if_pos hm]
  refine ⟨hty, ?_⟩
  have hunfold : ORFileLoad lines = if st.type = "setfile" then SetFileLoad lines
      else parseORTokens st.ints := by
    rw [ORFileLoad, h]
  rw [hunfold, if_pos hty]

/-- Witness for `marker_sets_explicit_mode` on a concrete explicit-format
file. -/
theorem marker_sets_explicit_mode_witness :
    IntStream.type { type := "setfile", ints := [1, 1, 1, 1, 0] } = "setfile" ∧
    ORFileLoad ["##setfile".toList, "1".toList, "1".toList, "1".toList, "1 0".toList]
      = SetFileLoad ["##setfile".toList, "1".toList, "1".toList, "1".toList, "1 0".toList] :=
  marker_sets_explicit_mode
    ["##setfile".toList, "1".toList, "1".toList, "1".toList, "1 0".toList]
    { type := "setfile", ints := [1, 1, 1, 1, 0] } (by rfl) (by rfl)

/-- Appending to one slot does not change the number of slots. -/
theorem appendAt_length (em : List (List ℤ)) (idx : ℕ) (v : ℤ) :
    (appendAt em idx v).length = em.length := by
  induction em generalizing idx with
  | nil => rfl
  | cons g rest ih =>
      cases idx with
      | zero => rfl
      | succ i => simpa [appendAt] using ih i

/-- Token encoding of a sequence of reference groups: each group is written
as its length followed by its entries. -/
def encodeGroups (groups : List (List ℤ)) : List ℤ :=
  groups.flatMap fun g => (g.length : ℤ) :: g

/-- The pure fold corresponding to running `addRefs` on consecutive element
values over a sequence of reference groups. -/
def refsFold : ℤ → List (List ℤ) → List (List ℤ) → Option (List (List ℤ))
  | _, [], em => some em
  | i, g :: gs, em =>
      match addRefs i g em with
      | none => none
      | some em2 => refsFold (i + 1) gs em2

/-- An out-of-bounds set reference in a group makes `addRefs` fail. -/
theorem addRefs_none (i : ℤ) (g : List ℤ) (em : List (List ℤ))
    (h : ∃ s ∈ g, ¬(1 ≤ s ∧ s ≤ (em.length : ℤ))) : addRefs i g em = none := by
  induction g generalizing em with
  | nil => simp at h
  | cons s seq ih =>
      obtain ⟨t, ht, hbad⟩ := h
      rw [addRefs]
      by_cases hs : 1 ≤ s ∧ s ≤ (em.length : ℤ)
      · rw [if_pos hs]
        rcases List.mem_cons.mp ht with rfl | ht'
        · exact absurd hs hbad
        · exact ih _ ⟨t, ht', by rwa [appendAt_length]⟩
      · rw [if_neg hs]

/-- With every reference in bounds, `addRefs` succeeds and preserves the
number of slots. -/
theorem addRefs_ok (i : ℤ) (g : List ℤ) (em : List (List ℤ))
    (h : ∀ s ∈ g, 1 ≤ s ∧ s ≤ (em.length : ℤ)) :
    ∃ em2, addRefs i g em = some em2 ∧ em2.length = em.length := by
  induction g generalizing em with
  | nil => exact ⟨em, rfl, rfl⟩
  | cons s seq ih =>
      have hs := h s (List.mem_cons_self _ _)
      obtain ⟨em2, hem2, hlen⟩ := ih (appendAt em (s - 1).toNat i)
        (fun t ht => by rw [appendAt_length]; exact h t (List.mem_cons_of_mem _ ht))
      refine ⟨em2, ?_, by rw [hlen, appendAt_length]⟩
      rw [addRefs, if_pos hs]
      exact hem2

/-- A bad reference in any group makes the whole fold fail. -/
theorem refsFold_none (gs : List (List ℤ)) (i : ℤ) (em : List (List ℤ))
    (h : ∃ g ∈ gs, ∃ s ∈ g, ¬(1 ≤ s ∧ s ≤ (em.length : ℤ))) :
    refsFold i gs em = none := by
  induction gs generalizing i em with
  | nil => simp at h
  | cons g rest ih =>
      obtain ⟨g0, hg0, t, ht, hbad⟩ := h
      rw [refsFold]
      by_cases hg : ∃ s ∈ g, ¬(1 ≤ s ∧ s ≤ (em.length : ℤ))
      · rw [addRefs_none i g em hg]
      · push_neg at hg
        obtain ⟨em2, hem2, hlen⟩ := addRefs_ok i g em hg
        rw [hem2]
        rcases List.mem_cons.mp hg0 with rfl | hg0'
        · exact absurd (hg t ht) hbad
        · exact ih _ _ ⟨g0, hg0', t, ht, by rwa [hlen]⟩

/-- With every reference of every group in bounds, the fold succeeds and
preserves the number of slots. -/
theorem refsFold_ok (gs : List (List ℤ)) (i : ℤ) (em : List (List ℤ))
    (h : ∀ g ∈ gs, ∀ s ∈ g, 1 ≤ s ∧ s ≤ (em.length : ℤ)) :
    ∃ em2, refsFold i gs em = some em2 ∧ em2.length = em.length := by
  induction gs generalizing i em with
  | nil => exact ⟨em, rfl, rfl⟩
  | cons g rest ih =>
      obtain ⟨em2, hem2, hlen2⟩ := addRefs_ok i g em (h g (List.mem_cons_self _ _))
      obtain ⟨em3, hem3, hlen3⟩ := ih (i + 1) em2
        (fun g0 hg0 s hs => by rw [hlen2]; exact h g0 (List.mem_cons_of_mem _ hg0) s hs)
      refine ⟨em3, ?_, by rw [hlen3, hlen2]⟩
      rw [refsFold, hem2]
      exact hem3

/-- Running the element loop on an exactly encoded sequence of groups is the
pure fold of `addRefs`, leaving the trailing tokens untouched. -/
theorem elemLoop_encode (groups : List (List ℤ)) :
    ∀ (i : ℤ) (em : List (List ℤ)) (tail : List ℤ),
    elemLoop groups.length i em (encodeGroups groups ++ tail) =
      match refsFold i groups em with
      | none => none
      | some em2 => some (em2, tail) := by
  induction groups with
  | nil => intro i em tail; rfl
  | cons g gs ih =>
      intro i em tail
      have henc : encodeGroups (g :: gs) ++ tail
          = (g.length : ℤ) :: (g ++ (encodeGroups gs ++ tail)) := by
        simp [encodeGroups, List.flatMap_cons]
      rw [henc]
      show (match getSeq (g.length : ℤ) (g ++ (encodeGroups gs ++ tail)) with
        | none => none
        | some (seq, l2) =>
            match addRefs i seq em with
            | none => none
            | some em2 => elemLoop gs.length (i + 1) em2 l2) = _
      have hseq : getSeq (g.length : ℤ) (g ++ (encodeGroups gs ++ tail))
          = some (g, encodeGroups gs ++ tail) := by
        rw [getSeq, if_pos ⟨Int.natCast_nonneg _, by
          rw [Int.toNat_ofNat, List.length_append]
          exact Nat.le_add_right _ _⟩]
        rw [Int.toNat_ofNat]
        have h1 : (g ++ (encodeGroups gs ++ tail)).take g.length = g := List.take_left ..
        have h2 : (g ++ (encodeGroups gs ++ tail)).drop g.length = encodeGroups gs ++ tail :=
          List.drop_left ..
        rw [h1, h2]
      rw [hseq]
      show (match addRefs i g em with
        | none => none
        | some em2 => elemLoop gs.length (i + 1) em2 (encodeGroups gs ++ tail)) = _
      rw [refsFold]
      cases addRefs i g em with
      | none => rfl
      | some em2 => exact ih (i + 1) em2 tail

/-- A structured indexed-grammar token stream parses to the fold of the
reference groups into the `set_count` empty slots, followed by the
`SetCover` constructor. -/
theorem parseORTokens_eq_refsFold (uc k : ℤ) (ws : List ℤ) (groups : List (List ℤ))
    (hk : 0 ≤ k) (hws : ws.length = k.toNat) (hg : groups.length = uc.toNat) :
    parseORTokens (uc :: k :: (ws ++ encodeGroups groups)) =
      match refsFold 0 groups (List.replicate k.toNat []) with
      | none => none
      | some em2 => mkSetCover uc (em2.map List.toFinset) ws := by
  show (match getSeq k (ws ++ encodeGroups groups) with
      | none => none
      | some (weight_list, l3) =>
          match elemLoop uc.toNat 0 (List.replicate k.toNat []) l3 with
          | none => none
          | some (element_member, l4) =>
              if l4 = [] then
                mkSetCover uc (element_member.map List.toFinset) weight_list
              else none) = _
  have hseq : getSeq k (ws ++ encodeGroups groups) = some (ws, encodeGroups groups) := by
    rw [getSeq, if_pos ⟨hk, by rw [← hws, List.length_append]; exact Nat.le_add_right _ _⟩]
    rw [← hws]
    have h1 : (ws ++ encodeGroups groups).take ws.length = ws := List.take_left ..
    have h2 : (ws ++ encodeGroups groups).drop ws.length = encodeGroups groups :=
      List.drop_left ..
    rw [h1, h2]
  rw [hseq]
  show (match elemLoop uc.toNat 0 (List.replicate k.toNat []) (encodeGroups groups) with
    | none => none
    | some (element_member, l4) =>
        if l4 = [] then mkSetCover uc (element_member.map List.toFinset) ws
        else none) = _
  have hloop : elemLoop uc.toNat 0 (List.replicate k.toNat []) (encodeGroups groups) =
      match refsFold 0 groups (List.replicate k.toNat []) with
      | none => none
      | some em2 => some (em2, ([] : List ℤ)) := by
    rw [← hg, ← List.append_nil (encodeGroups groups)]
    exact elemLoop_encode groups 0 _ []
  rw [hloop]
  cases refsFold 0 groups (List.replicate k.toNat []) with
  | none => rfl
  | some em2 => simp

/-- C8: for an indexed-grammar token stream with declared set count `k ≥ 0`,
`k` weights, and one count-prefixed reference group per universe element:
any set reference equal to `0` or greater than `k` makes the load fail
(`none` — never clamped or ignored), and when every reference lies in
`1..k` the bound check passes and the load proceeds to the `SetCover`
constructor on the inverted slots. -/
theorem reference_bounds_fatal (uc k : ℤ) (ws : List ℤ) (groups : List (List ℤ))
    (hk : 0 ≤ k) (hws : ws.length = k.toNat) (hg : groups.length = uc.toNat) :
    ((∃ g ∈ groups, ∃ s ∈ g, s = 0 ∨ k < s) →
      parseORTokens (uc :: k :: (ws ++ encodeGroups groups)) = none) ∧
    ((∀ g ∈ groups, ∀ s ∈ g, 1 ≤ s ∧ s ≤ k) →
      ∃ em, refsFold 0 groups (List.replicate k.toNat []) = some em ∧
        parseORTokens (uc :: k :: (ws ++ encodeGroups groups))
          = mkSetCover uc (em.map List.toFinset) ws) := by
  have hlen : ((List.replicate k.toNat ([] : List ℤ)).length : ℤ) = k := by
    rw [List.length_replicate]
    omega
  have hstep := parseORTokens_eq_refsFold uc k ws groups hk hws hg
  constructor
  · rintro ⟨g, hg0, s, hs, hbad⟩
    rw [hstep, refsFold_none groups 0 _ ⟨g, hg0, s, hs, by rw [hlen]; omega⟩]
  · intro hok
    obtain ⟨em, hem, -⟩ := refsFold_ok groups 0 (List.replicate k.toNat [])
      (fun g hg0 s hs => by rw [hlen]; exact hok g hg0 s hs)
    refine ⟨em, hem, ?_⟩
    rw [hstep, hem]

/-- Witness for `reference_bounds_fatal`: universe `{0}`, one set, weights
`[2]`, the single element contained in set `1`; the in-bounds branch
reaches the constructor. -/
theorem reference_bounds_fatal_witness :
    ∃ em, refsFold 0 [[(1 : ℤ)]] (List.replicate (1 : ℤ).toNat []) = some em ∧
      parseORTokens (1 :: 1 :: ([2] ++ encodeGroups [[1]]))
        = mkSetCover 1 (em.map List.toFinset) [2] :=
  (reference_bounds_fatal 1 1 [2] [[1]] (by decide) (by decide) (by decide)).2 (by decide)

/-- Appending to slot `idx` appends to exactly that slot. -/
theorem appendAt_getD (em : List (List ℤ)) (idx : ℕ) (v : ℤ) (j : ℕ) (hidx : idx < em.length) :
    (appendAt em idx v).getD j [] = em.getD j [] ++ if j = idx then [v] else [] := by
  induction em generalizing idx j with
  | nil => simp at hidx
  | cons g rest ih =>
      cases idx with
      | zero =>
          cases j with
          | zero => simp [appendAt]
          | succ jj => simp [appendAt]
      | succ ii =>
          cases j with
          | zero => simp [appendAt]
          | succ jj =>
              have hii : ii < rest.length := by simpa using hidx
              simpa [appendAt] using ih ii jj hii

/-- Folding `addRefs` over 1-origin references built from distinct 0-origin
slot indices succeeds and appends the element to exactly those slots. -/
theorem addRefs_idxs (v : ℤ) (idxs : List ℕ) (em : List (List ℤ))
    (hnd : idxs.Nodup) (hb : ∀ ind ∈ idxs, ind < em.length) :
    ∃ em2, addRefs v (idxs.map fun ind : ℕ => (ind : ℤ) + 1) em = some em2 ∧
      em2.length = em.length ∧
      ∀ j, em2.getD j [] = em.getD j [] ++ if j ∈ idxs then [v] else [] := by
  induction idxs generalizing em with
  | nil => exact ⟨em, rfl, rfl, fun j => by simp⟩
  | cons ind rest ih =>
      have hind : ind < em.length := hb ind (List.mem_cons_self _ _)
      obtain ⟨hnotin, hndrest⟩ := List.nodup_cons.mp hnd
      obtain ⟨em2, h2, hlen2, hget2⟩ := ih (appendAt em ind v) hndrest
        (fun t ht => by rw [appendAt_length]; exact hb t (List.mem_cons_of_mem _ ht))
      refine ⟨em2, ?_, by rw [hlen2, appendAt_length], fun j => ?_⟩
      · show (if 1 ≤ (ind : ℤ) + 1 ∧ (ind : ℤ) + 1 ≤ (em.length : ℤ) then
            addRefs v (rest.map fun i : ℕ => (i : ℤ) + 1) (appendAt em ((ind : ℤ) + 1 - 1).toNat v)
          else none) = some em2
        rw [if_pos ⟨by omega, by omega⟩]
        have htn : ((ind : ℤ) + 1 - 1).toNat = ind := by omega
        rw [htn]
        exact h2
      · rw [hget2 j, appendAt_getD em ind v j hind]
        by_cases hj : j = ind
        · subst hj
          simp [hnotin]
        · by_cases hjr : j ∈ rest <;> simp [hj, hjr]

/-- The 1-origin reference group `write_set_cover` emits for element `v`:
one reference `ind + 1` for each enumerated set containing `v`, in slot
order. -/
def grpOf (l : List PySet) (v : ℕ) : List ℤ :=
  ((List.range l.length).filter fun ind : ℕ => decide ((v : ℤ) ∈ l.getD ind ∅)).map
    fun ind : ℕ => (ind : ℤ) + 1

/-- Processing one written group appends element `v` to exactly the slots
whose sets contain it. -/
theorem addRefs_grpOf (l : List PySet) (v : ℕ) (em : List (List ℤ))
    (hlen : em.length = l.length) :
    ∃ em2, addRefs (v : ℤ) (grpOf l v) em = some em2 ∧ em2.length = em.length ∧
      ∀ j, em2.getD j [] = em.getD j []
        ++ if (v : ℤ) ∈ l.getD j ∅ then [(v : ℤ)] else [] := by
  have hnd : ((List.range l.length).filter fun ind : ℕ =>
      decide ((v : ℤ) ∈ l.getD ind ∅)).Nodup :=
    (List.nodup_range _).filter _
  have hb : ∀ ind ∈ (List.range l.length).filter fun ind : ℕ =>
      decide ((v : ℤ) ∈ l.getD ind ∅), ind < em.length := fun ind hi => by
    rw [hlen]
    exact List.mem_range.mp (List.mem_of_mem_filter hi)
  obtain ⟨em2, h1, h2, h3⟩ := addRefs_idxs (v : ℤ) _ em hnd hb
  refine ⟨em2, h1, h2, fun j => ?_⟩
  rw [h3 j]
  congr 1
  by_cases hvj : (v : ℤ) ∈ l.getD j ∅
  · have hjlen : j < l.length := by
      by_contra hge
      rw [List.getD_eq_default _ _ (by omega)] at hvj
      simp at hvj
    rw [if_pos (List.mem_filter.mpr ⟨List.mem_range.mpr hjlen, by simpa using hvj⟩),
      if_pos hvj]
  · rw [if_neg (fun hmem => hvj (by simpa using (List.mem_filter.mp hmem).2)), if_neg hvj]

/-- Folding the written reference groups for the consecutive element values
`a, a+1, …, a+b-1` appends each element to exactly the slots whose sets
contain it. -/
theorem refsFold_range' (l : List PySet) (b : ℕ) :
    ∀ (a : ℕ) (em : List (List ℤ)), em.length = l.length →
    ∃ em2, refsFold (a : ℤ) ((List.range' a b).map (grpOf l)) em = some em2 ∧
      em2.length = em.length ∧
      ∀ j, em2.getD j [] = em.getD j [] ++
        (((List.range' a b).filter fun v : ℕ => decide ((v : ℤ) ∈ l.getD j ∅)).map
          fun v : ℕ => (v : ℤ)) := by
  induction b with
  | zero => exact fun a em hlen => ⟨em, rfl, rfl, fun j => by simp [List.range']⟩
  | succ bb ih =>
      intro a em hlen
      obtain ⟨em1, h1, hlen1, hget1⟩ := addRefs_grpOf l a em hlen
      obtain ⟨em2, h2, hlen2, hget2⟩ := ih (a + 1) em1 (hlen1.trans hlen)
      refine ⟨em2, ?_, by rw [hlen2, hlen1], fun j => ?_⟩
      · rw [List.range'_succ, List.map_cons]
        show (match addRefs (a : ℤ) (grpOf l a) em with
          | none => none
          | some em3 =>
              refsFold ((a : ℤ) + 1) ((List.range' (a + 1) bb).map (grpOf l)) em3)
          = some em2
        rw [h1]
        show refsFold ((a : ℤ) + 1) ((List.range' (a + 1) bb).map (grpOf l)) em1 = some em2
        rw [show ((a : ℤ) + 1) = ((a + 1 : ℕ) : ℤ) by push_cast; ring]
        exact h2
      · rw [hget2 j, hget1 j, List.range'_succ, List.filter_cons]
        by_cases hv : (a : ℤ) ∈ l.getD j ∅
        · rw [if_pos hv, if_pos (by simpa using hv), List.map_cons, List.append_assoc]
          rfl
        · rw [if_neg hv, if_neg (by simpa using hv), List.append_nil]

/-- Every slot of the initial table of empty lists is empty. -/
theorem replicate_getD (k j : ℕ) : (List.replicate k ([] : List ℤ)).getD j [] = [] := by
  cases Nat.lt_or_ge j k with
  | inl h => rw [List.getD_eq_getElem _ _ (by simpa using h)]; simp
  | inr h => exact List.getD_eq_default _ _ (by simpa using h)

/-- Looking up a key in a dictionary built from duplicate-free keys zipped
with their images under `f` returns `f` of the key. -/
theorem updFold_zip_map (f : PySet → ℤ) (s : PySet) :
    ∀ l : List PySet, l.Nodup → s ∈ l →
      ∀ acc, updFold (l.zip (l.map f)) acc s = some (f s) := by
  intro l
  induction l with
  | nil => intro _ hs; simp at hs
  | cons t rest ih =>
      intro hnd hs acc
      obtain ⟨hnotin, hndrest⟩ := List.nodup_cons.mp hnd
      have hstep : updFold ((t :: rest).zip ((t :: rest).map f)) acc s
          = updFold (rest.zip (rest.map f)) (Function.update acc t (some (f t))) s := rfl
      rw [hstep]
      rcases List.mem_cons.mp hs with rfl | hs'
      · rw [updFold_not_mem _ _ _ (fun p hp hps => hnotin (by
          rw [← hps]; exact (List.of_mem_zip hp).1)), Function.update_same]
      · exact ih hndrest hs' _

theorem buildLookup_map_self (l : List PySet) (f : PySet → ℤ) (hnd : l.Nodup)
    (s : PySet) (hs : s ∈ l) : buildLookup l (l.map f) s = some (f s) := by
  rw [buildLookup_eq_updFold]
  exact updFold_zip_map f s l hnd hs _

/-- The element-to-slot index table built by the inversion loop of
`ORFile.write_set_cover`: `items[v]` lists, in increasing slot order, the
0-origin indices of the enumerated sets that contain `v` (the loop
`for ind, s in enumerate(sc.set_of_sets()): for v in s: items[v].append(ind)`
appends each `ind` to `items[v]` exactly when `v ∈ s`, in increasing `ind`
order). -/
def itemsTable (n : ℕ) (l : List PySet) : List (List ℕ) :=
  (List.range n).map fun v : ℕ =>
    (List.range l.length).filter fun ind : ℕ => decide ((v : ℤ) ∈ l.getD ind ∅)

/-- The sequence of integers `ORFile.write_set_cover` writes to the file
(its `'#'` comment lines contribute no tokens): `len(sc.universe())`,
`len(sc.set_of_sets())`, each set's `sc.weight(s)` in enumeration order
`l`, then for each universe element the length of `items[v]` followed by
the 1-origin indices `ind + 1`.  For a valid instance every enumerated set
has a weight, so the `getD` default is never taken (Python would raise
`KeyError` there). -/
def writeTokens (sc : SetCover) (l : List PySet) : List ℤ :=
  (sc.pyUniverse.card : ℤ) :: (l.length : ℤ) ::
    ((l.map fun s => (sc.weight s).getD 0) ++
      encodeGroups ((itemsTable sc.pyUniverse.card l).map fun g =>
        g.map fun ind : ℕ => (ind : ℤ) + 1))

/-- C7: writing a valid instance in the indexed (OR) format and re-parsing
the written token stream yields an instance with the same universe count,
the same collection of distinct candidate sets, and the same weight for
each candidate set.  `l` is the (arbitrary) order in which Python iterates
`sc.set_of_sets()` during writing. -/
theorem write_read_roundtrip (uc : ℤ) (los : List PySet) (ws : List ℤ)
    (sc : SetCover) (l : List PySet)
    (h : mkSetCover uc los ws = some sc) (hnd : l.Nodup)
    (henum : l.toFinset = sc.sets) :
    ∃ sc2, parseORTokens (writeTokens sc l) = some sc2 ∧
      sc2.universe_count = sc.universe_count ∧
      sc2.sets = sc.sets ∧
      ∀ s ∈ sc.sets, sc2.weight s = sc.weight s := by
  obtain ⟨hc, huc, hsets, hwl, hlookup, hinf⟩ := mkSetCover_eq_some h
  obtain ⟨h1, h2, h3, h4, h5, h6, h7⟩ := (coverChecksOK_iff uc los ws).mp hc
  have hflat : flattenSets los = Finset.Icc 0 (uc - 1) :=
    (flatten_checks_iff uc los h1).mp ⟨h3, h4, h5⟩
  have hn : sc.pyUniverse.card = uc.toNat := by
    rw [SetCover.pyUniverse, Int.card_Icc, huc]
    omega
  have hucn : ((uc.toNat : ℕ) : ℤ) = uc := by omega
  have hmemsets : ∀ s ∈ l, s ∈ los := by
    intro s hsl
    have hsset : s ∈ sc.sets := by rw [← henum]; exact List.mem_toFinset.mpr hsl
    rw [hsets, List.mem_toFinset] at hsset
    exact hsset
  have hsub : ∀ s ∈ l, ∀ x ∈ s, 0 ≤ x ∧ x ≤ uc - 1 := by
    intro s hsl x hx
    have hxf : x ∈ flattenSets los := (flattenSets_mem los x).mpr ⟨s, hmemsets s hsl, hx⟩
    rw [hflat, Finset.mem_Icc] at hxf
    exact hxf
  have hwts : ∀ s ∈ l, ∃ w, sc.weight s = some w ∧ 0 < w := by
    intro s hsl
    obtain ⟨w, hw, hlook⟩ := buildLookup_mem los ws h2 s (hmemsets s hsl)
    exact ⟨w, by rw [SetCover.weight, hlookup]; exact hlook, h7 w hw⟩
  set f : PySet → ℤ := fun s => (sc.weight s).getD 0 with hf
  have htok : writeTokens sc l
      = uc :: (l.length : ℤ) ::
          ((l.map f) ++ encodeGroups ((List.range uc.toNat).map (grpOf l))) := by
    rw [writeTokens, hn, hucn]
    have hgrp : (itemsTable uc.toNat l).map (fun g => g.map fun ind : ℕ => (ind : ℤ) + 1)
        = (List.range uc.toNat).map (grpOf l) := by
      rw [itemsTable, List.map_map]
      rfl
    rw [hgrp]
  have hstruct := parseORTokens_eq_refsFold uc (l.length : ℤ) (l.map f)
      ((List.range uc.toNat).map (grpOf l)) (Int.natCast_nonneg _) (by simp) (by simp)
  rw [Int.toNat_ofNat] at hstruct
  obtain ⟨em2, hfold, hlen2, hget2⟩ := refsFold_range' l uc.toNat 0
      (List.replicate l.length []) (by simp)
  have hfold' : refsFold 0 ((List.range uc.toNat).map (grpOf l))
      (List.replicate l.length []) = some em2 := by
    rw [List.range_eq_range']
    simpa using hfold
  have hlenem : em2.length = l.length := by
    rw [hlen2, List.length_replicate]
  have hmapeq : em2.map List.toFinset = l := by
    apply List.ext_getElem (by simp [hlenem])
    intro j hj1 hj2
    have hjlen : j < l.length := hj2
    have hjem : j < em2.length := by rw [hlenem]; exact hjlen
    have hgd : em2.getD j []
        = ((List.range uc.toNat).filter fun v : ℕ => decide ((v : ℤ) ∈ l.getD j ∅)).map
            fun v : ℕ => (v : ℤ) := by
      have hh := hget2 j
      rw [replicate_getD] at hh
      rw [hh, List.range_eq_range']
      rfl
    have hval : em2[j] = ((List.range uc.toNat).filter
        fun v : ℕ => decide ((v : ℤ) ∈ l.getD j ∅)).map fun v : ℕ => (v : ℤ) := by
      rw [← List.getD_eq_getElem em2 [] hjem]
      exact hgd
    rw [List.getElem_map, hval]
    ext x
    simp only [List.mem_toFinset, List.mem_map, List.mem_filter, List.mem_range,
      decide_eq_true_eq]
    constructor
    · rintro ⟨v, ⟨hvn, hvmem⟩, rfl⟩
      rwa [List.getD_eq_getElem l ∅ hjlen] at hvmem
    · intro hx
      have hbounds := hsub (l[j]) (List.getElem_mem hjlen) x hx
      refine ⟨x.toNat, ⟨by omega, ?_⟩, Int.toNat_of_nonneg hbounds.1⟩
      rw [List.getD_eq_getElem l ∅ hjlen]
      rwa [Int.toNat_of_nonneg hbounds.1]
  have hfl2 : flattenSets l = Finset.Icc 0 (uc - 1) := by
    rw [← toFinset_sup_eq_flattenSets l, henum, hsets, toFinset_sup_eq_flattenSets los,
      hflat]
  have hlne : l ≠ [] := by
    intro hle
    rw [hle] at hfl2
    have h0 : (0 : ℤ) ∈ flattenSets ([] : List PySet) := by
      rw [hfl2, Finset.mem_Icc]
      omega
    simp [flattenSets] at h0
  have hchecks : coverChecksOK uc l (l.map f) = true := by
    rw [coverChecksOK_iff]
    obtain ⟨hmin, hmax, hcard⟩ := (flatten_checks_iff uc l h1).mpr hfl2
    refine ⟨h1, by simp, hmin, hmax, hcard, by simpa using hlne, ?_⟩
    intro w hw
    rw [List.mem_map] at hw
    obtain ⟨s, hsl, rfl⟩ := hw
    obtain ⟨w', hw', hpos⟩ := hwts s hsl
    show 0 < f s
    rw [hf]
    simpa [hw'] using hpos
  have hparse : parseORTokens (writeTokens sc l) = mkSetCover uc l (l.map f) := by
    rw [htok, hstruct, hfold']
    show mkSetCover uc (em2.map List.toFinset) (l.map f) = _
    rw [hmapeq]
  refine ⟨{ universe_count := uc, sets := l.toFinset, weight_list := l.map f,
            weight_lookup := buildLookup l (l.map f),
            inf_weight := wsMax (l.map f) + 1 },
          ?_, by rw [huc], by rw [henum], ?_⟩
  · rw [hparse, mkSetCover, if_pos hchecks]
  · intro s hsset
    have hsl : s ∈ l := by
      rw [← henum] at hsset
      exact List.mem_toFinset.mp hsset
    show buildLookup l (l.map f) s = sc.weight s
    rw [buildLookup_map_self l f hnd s hsl]
    obtain ⟨w, hw, -⟩ := hwts s hsl
    rw [hw, hf]
    simp [hw]

/-- Witness for `write_read_roundtrip` on the concrete instance with
universe `{0, 1}`, sets `{0}` and `{1}`, weights `3` and `4`. -/
theorem write_read_roundtrip_witness :
    ∃ sc2, parseORTokens (writeTokens scEx [{0}, {1}]) = some sc2 ∧
      sc2.universe_count = scEx.universe_count ∧
      sc2.sets = scEx.sets ∧
      ∀ s ∈ scEx.sets, sc2.weight s = scEx.weight s :=
  write_read_roundtrip 2 [{0}, {1}] [3, 4] scEx [{0}, {1}] (by rfl) (by decide) (by decide)

/-- Python's `sols.add(x)` on a set of solutions, modelled as a
duplicate-free list: append `x` unless already present. -/
def pyAdd (sols : List (Finset PySet)) (x : Finset PySet) : List (Finset PySet) :=
  if x ∈ sols then sols else sols ++ [x]

/-- Python's `sols |= other` on sets of solutions. -/
def pyUnion (a b : List (Finset PySet)) : List (Finset PySet) :=
  b.foldl pyAdd a

/-- `sub_cover(uncovered, setlist)` (src/set-cover-approx.py, lines 63-78):
every solution of this subproblem, a set of frozensets of frozensets.
`setlist` is a Python set; it is modelled as a duplicate-free list whose
head is the arbitrary `next(iter(setlist))` pick, so `setlist - {s}` is the
tail.  If removing `s` covers everything, `{s}` is recorded; otherwise all
subsolutions that include `s` are collected (`get_subsols` inlined); the
solutions that skip `s` are unioned in. -/
def sub_cover (uncovered : PySet) : List PySet → List (Finset PySet)
  | [] => []
  | s :: rest =>
      let new_uncovered := uncovered \ s
      let sols :=
        if new_uncovered = ∅ then pyAdd [] {s}
        else (sub_cover new_uncovered rest).foldl
          (fun acc subs => pyAdd acc (subs ∪ {s})) []
      pyUnion sols (sub_cover uncovered rest)

/-- `get_subsols(s, setlist, uncovered)` (src/set-cover-approx.py, lines
55-61): all subsolutions that include `s`; `setlist - {s}` is `rest`. -/
def get_subsols (s : PySet) (rest : List PySet) (uncovered : PySet) :
    List (Finset PySet) :=
  (sub_cover uncovered rest).foldl (fun acc subs => pyAdd acc (subs ∪ {s})) []

/-- `optimum_set_cover(universe, setlist)` (src/set-cover-approx.py, lines
80-84): the solution with the fewest sets, `min(solutions, key=len)`
(`min` raises on an empty collection, i.e. `none`; ties go to whichever
minimum comes first in iteration order). -/
def optimum_set_cover (univ : PySet) (setlist : List PySet) :
    Option (Finset PySet) :=
  (sub_cover univ setlist).argmin Finset.card

theorem pyAdd_mem (sols : List (Finset PySet)) (x y : Finset PySet) :
    y ∈ pyAdd sols x ↔ y ∈ sols ∨ y = x := by
  rw [pyAdd]
  by_cases hx : x ∈ sols
  · rw [if_pos hx]
    constructor
    · exact Or.inl
    · rintro (hy | rfl)
      · exact hy
      · exact hx
  · rw [if_neg hx]
    simp

theorem pyUnion_mem (b a : List (Finset PySet)) (y : Finset PySet) :
    y ∈ pyUnion a b ↔ y ∈ a ∨ y ∈ b := by
  induction b generalizing a with
  | nil => simp [pyUnion]
  | cons x rest ih =>
      show y ∈ pyUnion (pyAdd a x) rest ↔ _
      rw [ih, pyAdd_mem]
      simp only [List.mem_cons]
      tauto

theorem foldl_pyAdd_mem (g : Finset PySet → Finset PySet) (l : List (Finset PySet))
    (y : Finset PySet) :
    ∀ acc, y ∈ l.foldl (fun acc subs => pyAdd acc (g subs)) acc ↔
      y ∈ acc ∨ ∃ subs ∈ l, y = g subs := by
  induction l with
  | nil => intro acc; simp
  | cons x rest ih =>
      intro acc
      show y ∈ rest.foldl (fun acc subs => pyAdd acc (g subs)) (pyAdd acc (g x)) ↔ _
      rw [ih, pyAdd_mem]
      simp only [List.mem_cons]
      constructor
      · rintro ((hy | rfl) | ⟨subs, hsubs, rfl⟩)
        · exact Or.inl hy
        · exact Or.inr ⟨x, Or.inl rfl, rfl⟩
        · exact Or.inr ⟨subs, Or.inr hsubs, rfl⟩
      · rintro (hy | ⟨subs, rfl | hsubs, rfl⟩)
        · exact Or.inl (Or.inl hy)
        · exact Or.inl (Or.inr rfl)
        · exact Or.inr ⟨subs, hsubs, rfl⟩

/-- Unfolding of `sub_cover` on a nonempty collection. -/
theorem sub_cover_cons (u s : PySet) (rest : List PySet) :
    sub_cover u (s :: rest) =
      pyUnion (if u \ s = ∅ then pyAdd [] {s} else get_subsols s rest (u \ s))
        (sub_cover u rest) :=
  rfl

/-- Membership in `sub_cover` on a nonempty collection. -/
theorem sub_cover_cons_mem (u s : PySet) (rest : List PySet) (sol : Finset PySet) :
    sol ∈ sub_cover u (s :: rest) ↔
      (if u \ s = ∅ then sol = {s}
       else ∃ subs ∈ sub_cover (u \ s) rest, sol = subs ∪ {s}) ∨
      sol ∈ sub_cover u rest := by
  rw [sub_cover_cons, pyUnion_mem]
  by_cases hc : u \ s = ∅
  · rw [if_pos hc, if_pos hc, pyAdd_mem]
    simp
  · rw [if_neg hc, if_neg hc, get_subsols, foldl_pyAdd_mem]
    simp

/-- Soundness of the recursive search: every recorded solution draws its
sets from the remaining collection and covers the uncovered elements. -/
theorem sub_cover_sound (sl : List PySet) :
    ∀ (u : PySet), ∀ sol ∈ sub_cover u sl, (∀ t ∈ sol, t ∈ sl) ∧ u ⊆ sol.sup id := by
  induction sl with
  | nil => intro u sol hsol; simp [sub_cover] at hsol
  | cons s rest ih =>
      intro u sol hsol
      rw [sub_cover_cons_mem] at hsol
      by_cases hc : u \ s = ∅
      · rw [if_pos hc] at hsol
        rcases hsol with rfl | hrec
        · refine ⟨fun t ht => ?_, fun x hx => ?_⟩
          · rw [Finset.mem_singleton] at ht
            rw [ht]
            exact List.mem_cons_self _ _
          · rw [Finset.sup_singleton]
            have := Finset.sdiff_eq_empty_iff_subset.mp hc
            exact this hx
        · obtain ⟨hsets, hcov⟩ := ih u sol hrec
          exact ⟨fun t ht => List.mem_cons_of_mem _ (hsets t ht), hcov⟩
      · rw [if_neg hc] at hsol
        rcases hsol with ⟨subs, hsubs, rfl⟩ | hrec
        · obtain ⟨hsets, hcov⟩ := ih (u \ s) subs hsubs
          constructor
          · intro t ht
            rw [Finset.mem_union] at ht
            rcases ht with ht | ht
            · exact List.mem_cons_of_mem _ (hsets t ht)
            · rw [Finset.mem_singleton] at ht
              rw [ht]
              exact List.mem_cons_self _ _
          · intro x hx
            rw [Finset.mem_sup]
            by_cases hxs : x ∈ s
            · exact ⟨s, Finset.mem_union_right _ (Finset.mem_singleton_self s), hxs⟩
            · have hx2 : x ∈ u \ s := Finset.mem_sdiff.mpr ⟨hx, hxs⟩
              have := hcov hx2
              rw [Finset.mem_sup] at this
              obtain ⟨t, ht, hxt⟩ := this
              exact ⟨t, Finset.mem_union_left _ ht, hxt⟩
        · obtain ⟨hsets, hcov⟩ := ih u sol hrec
          exact ⟨fun t ht => List.mem_cons_of_mem _ (hsets t ht), hcov⟩

/-- Minimality of the recursive search: for every covering subfamily of the
remaining collection, some recorded solution uses no more sets. -/
theorem sub_cover_min (sl : List PySet) :
    ∀ (u : PySet) (F : Finset PySet), sl.Nodup → u.Nonempty →
      F ⊆ sl.toFinset → u ⊆ F.sup id →
      ∃ sol ∈ sub_cover u sl, sol.card ≤ F.card := by
  induction sl with
  | nil =>
      intro u F _ hne hF hcov
      rw [List.toFinset_nil, Finset.subset_empty] at hF
      subst hF
      obtain ⟨x, hx⟩ := hne
      have := hcov hx
      simp [Finset.mem_sup] at this
  | cons s rest ih =>
      intro u F hnd hne hF hcov
      obtain ⟨hnotin, hndrest⟩ := List.nodup_cons.mp hnd
      have hFne : F.Nonempty := by
        rcases Finset.eq_empty_or_nonempty F with rfl | hFne
        · obtain ⟨x, hx⟩ := hne
          have := hcov hx
          simp [Finset.mem_sup] at this
        · exact hFne
      by_cases hc : u \ s = ∅
      · refine ⟨{s}, ?_, ?_⟩
        · rw [sub_cover_cons_mem, if_pos hc]
          exact Or.inl rfl
        · rw [Finset.card_singleton]
          exact Finset.Nonempty.card_pos hFne
      · by_cases hsF : s ∈ F
        · have hF' : F.erase s ⊆ rest.toFinset := by
            intro t ht
            obtain ⟨hts, htF⟩ := Finset.mem_erase.mp ht
            have := hF htF
            rw [List.toFinset_cons, Finset.mem_insert] at this
            rcases this with rfl | hmem
            · exact absurd rfl hts
            · exact hmem
          have hcov' : u \ s ⊆ (F.erase s).sup id := by
            intro x hx
            obtain ⟨hxu, hxs⟩ := Finset.mem_sdiff.mp hx
            have := hcov hxu
            rw [Finset.mem_sup] at this
            obtain ⟨t, htF, hxt⟩ := this
            have hts : t ≠ s := fun hts => hxs (hts ▸ hxt)
            rw [Finset.mem_sup]
            exact ⟨t, Finset.mem_erase.mpr ⟨hts, htF⟩, hxt⟩
          have hne' : (u \ s).Nonempty := Finset.nonempty_iff_ne_empty.mpr hc
          obtain ⟨subs, hsubs, hcard⟩ := ih (u \ s) (F.erase s) hndrest hne' hF' hcov'
          refine ⟨subs ∪ {s}, ?_, ?_⟩
          · rw [sub_cover_cons_mem, if_neg hc]
            exact Or.inl ⟨subs, hsubs, rfl⟩
          · have h1 : (subs ∪ {s}).card ≤ subs.card + 1 := by
              rw [Finset.union_comm]
              have : ({s} : Finset PySet) ∪ subs = insert s subs := by
                rw [Finset.insert_eq]
              rw [this]
              exact Finset.card_insert_le _ _
            have h2 : (F.erase s).card = F.card - 1 := Finset.card_erase_of_mem hsF
            have h3 : 0 < F.card := Finset.Nonempty.card_pos hFne
            omega
        · have hF2 : F ⊆ rest.toFinset := by
            intro t ht
            have := hF ht
            rw [List.toFinset_cons, Finset.mem_insert] at this
            rcases this with rfl | hmem
            · exact absurd ht hsF
            · exact hmem
          obtain ⟨sol, hsol, hcard⟩ := ih u F hndrest hne hF2 hcov
          refine ⟨sol, ?_, hcard⟩
          rw [sub_cover_cons_mem]
          exact Or.inr hsol

/-- C1: on any universe and duplicate-free collection of candidate subsets
of it whose union covers it, `optimum_set_cover` returns a covering family
drawn from the collection whose union is exactly the universe and whose
cardinality is minimum among all covering subfamilies; and on universe
`{0,1,2}` with candidates `{0,1}, {1,2}, {0,1,2}` it returns the single-set
family `{{0,1,2}}`.  (The instance constructor guarantees a nonempty
universe; the spec leaves an empty universe undefined.) -/
theorem optimum_set_cover_correct :
    (∀ (U : PySet) (L : List PySet), L.Nodup → U.Nonempty →
      (∀ s ∈ L, s ⊆ U) → U ⊆ L.toFinset.sup id →
      ∃ F, optimum_set_cover U L = some F ∧
        F ⊆ L.toFinset ∧ F.sup id = U ∧
        ∀ G : Finset PySet, G ⊆ L.toFinset → U ⊆ G.sup id → F.card ≤ G.card) ∧
    optimum_set_cover {0, 1, 2} [{0, 1}, {1, 2}, {0, 1, 2}] = some {{0, 1, 2}} := by
  constructor
  · intro U L hnd hne hsub hcov
    obtain ⟨sol0, hsol0, -⟩ := sub_cover_min L U L.toFinset hnd hne (subset_refl _) hcov
    have hne2 : sub_cover U L ≠ [] := fun hnil => by
      rw [hnil] at hsol0
      simp at hsol0
    obtain ⟨F, hF⟩ : ∃ F, (sub_cover U L).argmin Finset.card = some F := by
      cases hargmin : (sub_cover U L).argmin Finset.card with
      | none => exact absurd (List.argmin_eq_none.mp hargmin) hne2
      | some F => exact ⟨F, rfl⟩
    have hFmem : F ∈ sub_cover U L := List.argmin_mem (Option.mem_def.mpr hF)
    obtain ⟨hsets, hcovF⟩ := sub_cover_sound L U F hFmem
    refine ⟨F, hF, ?_, ?_, ?_⟩
    · intro t ht
      exact List.mem_toFinset.mpr (hsets t ht)
    · apply Finset.Subset.antisymm
      · intro x hx
        rw [Finset.mem_sup] at hx
        obtain ⟨t, htF, hxt⟩ := hx
        exact hsub t (hsets t htF) hxt
      · exact hcovF
    · intro G hG hcovG
      obtain ⟨sol, hsol, hcard⟩ := sub_cover_min L U G hnd hne hG hcovG
      have hle := List.le_of_mem_argmin hsol (Option.mem_def.mpr hF)
      omega
  · decide

/-- Witness for `optimum_set_cover_correct` at the spec's concrete example. -/
theorem optimum_set_cover_correct_witness :
    ∃ F, optimum_set_cover {0, 1, 2} [{0, 1}, {1, 2}, {0, 1, 2}] = some F ∧
      F ⊆ ([{0, 1}, {1, 2}, {0, 1, 2}] : List PySet).toFinset ∧
      F.sup id = ({0, 1, 2} : PySet) ∧
      ∀ G : Finset PySet, G ⊆ ([{0, 1}, {1, 2}, {0, 1, 2}] : List PySet).toFinset →
        ({0, 1, 2} : PySet) ⊆ G.sup id → F.card ≤ G.card :=
  optimum_set_cover_correct.1 {0, 1, 2} [{0, 1}, {1, 2}, {0, 1, 2}]
    (by decide) (by decide) (by decide) (by decide)

/-- C10: the recursive search terminates: the base case returns no
solutions, and on a nonempty collection both recursive calls — the
`get_subsols` branch and the skip branch — run on `setlist - {s}` (the
tail), whose cardinality is strictly smaller, so the recursion reaches the
empty base case; the Lean definitions of `sub_cover` and `get_subsols` are
accepted by structural recursion on exactly this decreasing measure. -/
theorem sub_cover_terminates :
    (∀ u : PySet, sub_cover u [] = []) ∧
    (∀ (u s : PySet) (rest : List PySet),
      sub_cover u (s :: rest) =
        pyUnion (if u \ s = ∅ then pyAdd [] {s} else get_subsols s rest (u \ s))
          (sub_cover u rest)) ∧
    (∀ (s : PySet) (rest : List PySet), rest.length < (s :: rest).length) := by
  refine ⟨fun u => rfl, fun u s rest => rfl, fun s rest => ?_⟩
  simp [List.length_cons]
